import Mathlib

/-!
Shallow embedding of the EOOS heap allocator (`lib.Heap.hpp`).

The C++ code manages a contiguous memory region as an intrusive doubly
linked chain of `HeapBlock` headers, each followed by its payload.  The
code maintains by construction that the successor of a block lives at
`this + sizeof(HeapBlock) + size_`, so the chain is embedded here as a
`List HeapBlock` together with the address of its first block; the
address of the i-th block is derived from the sizes of the blocks before
it.  `size_t` values are `Nat` with explicit `% 2^64` where wraparound
matters, and bit masking with `0x7` / `~0x7` is written with `% 8`.
-/

namespace EoosHeap

/-- `HEAP_KEY` constant of `Heap` (`0x19811019`). -/
def HEAP_KEY : Nat := 0x19811019

/-- `BLOCK_KEY` constant of `Heap::HeapBlock` (`0x1982040120150515`). -/
def BLOCK_KEY : Nat := 0x1982040120150515

/-- `sizeof(Heap)` on an LP64 platform: vtable pointer + `HeapData`
(pointer, pointer, `size_t`, padded `int32_t`) + the `Aligner` padding;
a multiple of eight as the code statically checks. -/
def sizeofHeap : Nat := 48

/-- `sizeof(Heap::HeapBlock)` on an LP64 platform: three pointers,
a padded `int32_t` attribute word, `size_t` size and `size_t` key;
a multiple of eight as the code statically checks. -/
def sizeofHeapBlock : Nat := 48

/-- One header of the block chain: `attr_` (attribute word, bit 0 is
`ATTR_USED`), `size_` (payload capacity in bytes, header excluded) and
`key_` (corruption-detection tag).  The `heap_`, `prev_` and `next_`
pointers of the C++ struct are represented by the position of the block
in the chain list and by the owning region passed where needed. -/
structure HeapBlock where
  attr : Nat
  size : Nat
  key : Nat
deriving DecidableEq, Repr

instance : Inhabited HeapBlock := ⟨⟨0, 0, 0⟩⟩

/-- `HeapBlock::isUsed`: `(attr_ & ATTR_USED) != 0` with `ATTR_USED = 1`. -/
def isUsed (b : HeapBlock) : Bool := b.attr % 2 = 1

/-- `attr_ |= ATTR_USED`: set bit 0 of the attribute word. -/
def setUsed (b : HeapBlock) : HeapBlock :=
  { b with attr := if b.attr % 2 = 1 then b.attr else b.attr + 1 }

/-- `attr_ &= ~ATTR_USED`: clear bit 0 of the attribute word. -/
def clearUsed (b : HeapBlock) : HeapBlock :=
  { b with attr := b.attr - b.attr % 2 }

/-- `HeapBlock::isConstructed`: `key_ == BLOCK_KEY`. -/
def blockIsConstructed (b : HeapBlock) : Bool := b.key == BLOCK_KEY

/-- The size alignment step of `HeapBlock::alloc`:
`if((size & 0x7) != 0) size = (size & ~0x7) + 0x8`; for a `size_t`
value, `size & 0x7` is `size % 8` and `size & ~0x7` is `size - size % 8`,
and the sum is `size_t` arithmetic: for `size` in `[2^64-7, 2^64-1]`
it wraps around to zero. -/
def align8 (size : Nat) : Nat :=
  if size % 8 ≠ 0 then ((size - size % 8) + 8) % 2 ^ 64 else size

/-- The `HeapBlock` constructor `HeapBlock(heap, size)`: attributes
zero, `size_ = size - sizeof(HeapBlock)`, `key_ = BLOCK_KEY`. -/
def mkHeapBlock (size : Nat) : HeapBlock :=
  ⟨0, size - sizeofHeapBlock, BLOCK_KEY⟩

/-- `HeapBlock::operator new(size, ptr)`: yields the given address only
when `sizeof(HeapBlock)` and the address are both multiples of eight. -/
def placementOk (p : Nat) : Bool := sizeofHeapBlock % 8 == 0 && p % 8 == 0

/-- The scan-and-split loop of `HeapBlock::alloc` after the size has
been aligned.  `addr` is the address of the block at the head of `bs`
(the loop variable `curr`); a used block or a too-small block is
skipped; at the first fitting free block, if the capacity also hosts
the request plus a whole header (`size + sizeof(HeapBlock)` cannot
wrap there: the scan guarantees `size <= curr->size_`, and a block of
a `size_t`-sized region has capacity below `2^64 - 48`), a remainder
block is constructed in
place at `curr + sizeof(HeapBlock) + size` (its placement `operator
new` checks the eight-byte alignment of that address) and linked after
`curr` whose capacity shrinks to `size`; the found block is marked used
and its payload address `curr->data()` is returned. -/
def blockAllocGo (size : Nat) : Nat → List HeapBlock → Option Nat × List HeapBlock
  | _, [] => (none, [])
  | addr, b :: rest =>
    if isUsed b then
      let r := blockAllocGo size (addr + sizeofHeapBlock + b.size) rest
      (r.1, b :: r.2)
    else if b.size < size then
      let r := blockAllocGo size (addr + sizeofHeapBlock + b.size) rest
      (r.1, b :: r.2)
    else if size + sizeofHeapBlock ≤ b.size then
      if placementOk (addr + sizeofHeapBlock + size) then
        (some (addr + sizeofHeapBlock),
          setUsed { b with size := size } :: mkHeapBlock (b.size - size) :: rest)
      else
        (none, b :: rest)
    else
      (some (addr + sizeofHeapBlock), setUsed b :: rest)

/-- `HeapBlock::alloc(size)` called on the chain head at address
`addr`: size zero is rejected, otherwise the size is aligned to eight
and the first-fit scan runs. -/
def blockAlloc (addr : Nat) (bs : List HeapBlock) (size : Nat) :
    Option Nat × List HeapBlock :=
  if size = 0 then (none, bs)
  else blockAllocGo (align8 size) addr bs

/-- `HeapBlock::canDelete`: the block's own tag and the owning heap's
`isConstructed()` check must both pass. -/
def canDelete (heapOk : Bool) (self : HeapBlock) : Bool :=
  blockIsConstructed self && heapOk

/-- `HeapBlock::free` of a block `self` whose chain is `pre ++ self ::
post`: `prev_` is the last block of `pre` and `next_` the head of
`post`.  After the `canDelete` guard, one of four outcomes applies
depending on whether the neighbours are free: both free — `prev_`
absorbs both capacities plus two headers and is relinked to `next_`'s
successor; only previous free — `prev_` absorbs one header plus
`self`'s capacity; only next free — `self` absorbs one header plus
`next_`'s capacity and clears its used bit; neither — `self` clears
its used bit. -/
def blockFree (heapOk : Bool) (pre : List HeapBlock) (self : HeapBlock)
    (post : List HeapBlock) : List HeapBlock :=
  if !(canDelete heapOk self) then pre ++ self :: post
  else
    match pre.getLast?, post.head? with
    | some p, some n =>
      if !(isUsed p) && !(isUsed n) then
        pre.dropLast
          ++ { p with size := p.size + 2 * sizeofHeapBlock + self.size + n.size }
          :: post.tail
      else if !(isUsed p) then
        pre.dropLast ++ { p with size := p.size + sizeofHeapBlock + self.size } :: post
      else if !(isUsed n) then
        pre ++ clearUsed { self with size := self.size + sizeofHeapBlock + n.size }
          :: post.tail
      else
        pre ++ clearUsed self :: post
    | some p, none =>
      if !(isUsed p) then
        pre.dropLast ++ { p with size := p.size + sizeofHeapBlock + self.size } :: post
      else
        pre ++ clearUsed self :: post
    | none, some n =>
      if !(isUsed n) then
        pre ++ clearUsed { self with size := self.size + sizeofHeapBlock + n.size }
          :: post.tail
      else
        pre ++ clearUsed self :: post
    | none, none => pre ++ clearUsed self :: post

/-- `HeapBlock::free` invoked on the i-th block of the chain (`free()`
is only ever reached through a payload address of a chain block, so an
out-of-range index is not a behaviour of the code and leaves the model
unchanged). -/
def freeAt (heapOk : Bool) (bs : List HeapBlock) (i : Nat) : List HeapBlock :=
  match bs[i]? with
  | none => bs
  | some self => blockFree heapOk (bs.take i) self (bs.drop (i + 1))

/-- Address of the i-th block of a chain whose first block sits at
`a0`: each block occupies its header followed by `size_` payload
bytes, which is exactly where `HeapBlock::next(size)` places the next
header. -/
def blockAddr (a0 : Nat) (bs : List HeapBlock) (i : Nat) : Nat :=
  a0 + ((bs.take i).map (fun b => sizeofHeapBlock + b.size)).sum

/-- `HeapBlock::data()`: `this + sizeof(HeapBlock)`. -/
def dataAddr (a : Nat) : Nat := a + sizeofHeapBlock

/-- `Heap::heapBlock(data)`: `data - sizeof(HeapBlock)` in `size_t`
arithmetic. -/
def heapBlockAddr (p : Nat) : Nat := (p + (2 ^ 64 - sizeofHeapBlock)) % 2 ^ 64

/-- Index of the chain block sitting at address `a`, walking the chain
from its first block at `a0`; the model of the `reinterpret_cast` of
`Heap::heapBlock`, which is meaningful only when `a` is the address of
a block of the chain. -/
def idxOfAddr (a0 : Nat) : List HeapBlock → Nat → Option Nat
  | [], _ => none
  | b :: rest, a =>
    if a0 = a then some 0
    else (idxOfAddr (a0 + sizeofHeapBlock + b.size) rest a).map (· + 1)

/-- State of a `Heap` object: `data_.key`, `data_.size` (usable bytes
behind the `Heap` header) and the block chain starting at
`getFirstBlock()`. -/
structure HeapState where
  key : Nat
  size : Nat
  blocks : List HeapBlock
deriving DecidableEq, Repr

/-- `Heap::isConstructed`: `data_.key == HEAP_KEY` and the first
block's tag is intact. -/
def heapIsConstructed (h : HeapState) : Bool :=
  (h.key == HEAP_KEY) &&
    (match h.blocks.head? with
     | some b => blockIsConstructed b
     | none => false)

/-- `Heap::allocate(size, ptr)` with `a0` the address of the first
block: null on a non-constructed region; a non-null `ptr` is passed
through unchanged; otherwise delegate to the first block's `alloc`. -/
def heapAllocate (a0 : Nat) (h : HeapState) (size : Nat) (ptr : Option Nat) :
    Option Nat × HeapState :=
  if !(heapIsConstructed h) then (none, h)
  else
    match ptr with
    | some p => (some p, h)
    | none =>
      let r := blockAlloc a0 h.blocks size
      (r.1, { h with blocks := r.2 })

/-- `Heap::free(ptr)`: return on a null pointer or a non-constructed
region, otherwise reinterpret `ptr - sizeof(HeapBlock)` as the block
to free and call its `free()`.  A pointer that does not map back to a
chain block is a precondition violation of the code (`InvalidFree`)
and leaves the model unchanged. -/
def heapFree (a0 : Nat) (h : HeapState) (ptr : Option Nat) : HeapState :=
  match ptr with
  | none => h
  | some p =>
    if !(heapIsConstructed h) then h
    else
      match idxOfAddr a0 h.blocks (heapBlockAddr p) with
      | some i => { h with blocks := freeAt (heapIsConstructed h) h.blocks i }
      | none => h

/-- Abstract random-access memory over which the destructive memory
test of `Heap::isMemoryAvailable` runs: a store of byte cells that may
be faulty (a read need not return what was written), which is exactly
what the test is there to detect. -/
structure RamModel (M : Type) where
  write : M → Nat → Nat → M
  read : M → Nat → Nat

/-- One write loop of `Heap::isMemoryAvailable`:
`for(i = first; i < first + k; i++) ptr[i] = pat(i)` (the cell type is
a byte and `mask = -1`, so the stored value is the low byte of the
pattern). -/
def writeFrom {M : Type} (r : RamModel M) (pat : Nat → Nat) (addr : Nat) :
    M → Nat → Nat → M
  | m, _, 0 => m
  | m, i, k + 1 => writeFrom r pat addr (r.write m (addr + i) (pat i)) (i + 1) k

/-- One comparison loop of `Heap::isMemoryAvailable`:
`for(i = first; i < first + k; i++) if(ptr[i] != pat(i)) return false`. -/
def checkFrom {M : Type} (r : RamModel M) (pat : Nat → Nat) (addr : Nat) (m : M) :
    Nat → Nat → Bool
  | _, 0 => true
  | i, k + 1 =>
    if r.read m (addr + i) == pat i then checkFrom r pat addr m (i + 1) k
    else false

/-- One write-then-compare pass of `Heap::isMemoryAvailable` over the
whole range, returning the comparison verdict and the memory state
after the writes. -/
def ramPass {M : Type} (r : RamModel M) (m : M) (addr size : Nat) (pat : Nat → Nat) :
    Bool × M :=
  let m2 := writeFrom r pat addr m 0 size
  (checkFrom r pat addr m2 0 size, m2)

/-- The four test patterns of `Heap::isMemoryAvailable`, per byte cell:
`(cell_t)(i & mask)` is the low byte of the index, then `0x55555555 &
mask = 0x55`, then `0xAAAAAAAA & mask = 0xAA`, then zero. -/
def idxPat (i : Nat) : Nat := i % 256

/-- `Heap::isMemoryAvailable(addr, size)`: runs the index pattern, the
`0x55` pattern, the `0xAA` pattern and the zero pattern in sequence,
each written over the full range and then compared cell by cell; the
first failed comparison makes the whole test false and no later
pattern is written. -/
def isMemoryAvailable {M : Type} (r : RamModel M) (m : M) (addr size : Nat) :
    Bool × M :=
  let p1 := ramPass r m addr size idxPat
  if !p1.1 then (false, p1.2)
  else
    let p2 := ramPass r p1.2 addr size (fun _ => 0x55)
    if !p2.1 then (false, p2.2)
    else
      let p3 := ramPass r p2.2 addr size (fun _ => 0xAA)
      if !p3.1 then (false, p3.2)
      else
        let p4 := ramPass r p3.2 addr size (fun _ => 0x00)
        (p4.1, p4.2)

/-- `data_.size` as computed by the `HeapData` constructor:
`(isize & ~0x7) - sizeof(Heap)` in `size_t` arithmetic (the
subtraction wraps modulo `2^64` when the cropped size is below
`sizeof(Heap)`). -/
def heapDataSize (isize : Nat) : Nat :=
  ((isize - isize % 8) + (2 ^ 64 - sizeofHeap)) % 2 ^ 64

/-- `new (addr) Heap(isize)`: `Heap::operator new` runs `create`
(reject a null address without running anything; otherwise check
`sizeof(Heap) % 8`, destructively test the first `sizeof(Heap)` bytes,
and check the eight-byte alignment of the address — a failed `create`
yields a null object and the constructor does not run).  The
constructor then builds `HeapData` and runs `construct`: reject when
the usable size cannot host a minimal block (`sizeof(HeapBlock) + 16 >
data_.size`), when either structure size is not a multiple of eight,
when the destructive test of the usable range fails, or when the
placement `new` of the first block rejects its address; a failed
`construct` clears the key, leaving a non-constructed object with no
installed chain.  On success the first block spans the usable area. -/
def heapNew {M : Type} (r : RamModel M) (m : M) (addr isize : Nat) :
    Option HeapState × M :=
  if addr = 0 then (none, m)
  else if sizeofHeap % 8 ≠ 0 ∨ (isMemoryAvailable r m addr sizeofHeap).1 = false
      ∨ addr % 8 ≠ 0 then
    (none, (isMemoryAvailable r m addr sizeofHeap).2)
  else if sizeofHeapBlock + 16 > heapDataSize isize then
    (some ⟨0, heapDataSize isize, []⟩, (isMemoryAvailable r m addr sizeofHeap).2)
  else if sizeofHeap % 8 ≠ 0 ∨ sizeofHeapBlock % 8 ≠ 0 then
    (some ⟨0, heapDataSize isize, []⟩, (isMemoryAvailable r m addr sizeofHeap).2)
  else if (isMemoryAvailable r (isMemoryAvailable r m addr sizeofHeap).2
      (addr + sizeofHeap) (heapDataSize isize)).1 = false then
    (some ⟨0, heapDataSize isize, []⟩,
      (isMemoryAvailable r (isMemoryAvailable r m addr sizeofHeap).2
        (addr + sizeofHeap) (heapDataSize isize)).2)
  else if placementOk (addr + sizeofHeap) = false then
    (some ⟨0, heapDataSize isize, []⟩,
      (isMemoryAvailable r (isMemoryAvailable r m addr sizeofHeap).2
        (addr + sizeofHeap) (heapDataSize isize)).2)
  else
    (some ⟨HEAP_KEY, heapDataSize isize, [mkHeapBlock (heapDataSize isize)]⟩,
      (isMemoryAvailable r (isMemoryAvailable r m addr sizeofHeap).2
        (addr + sizeofHeap) (heapDataSize isize)).2)

/-- The call sequences of the contract: from a chain `bs` one may run
`alloc` with any size or `free` on any block of the chain (the heap
object stays constructed throughout, so the `canDelete` guard sees an
intact region tag). -/
inductive Reach (a0 : Nat) : List HeapBlock → List HeapBlock → Prop where
  | refl : ∀ bs, Reach a0 bs bs
  | alloc : ∀ bs cs n, Reach a0 bs cs → Reach a0 bs (blockAlloc a0 cs n).2
  | free : ∀ bs cs i, Reach a0 bs cs → Reach a0 bs (freeAt true cs i)

/-- No two adjacent blocks of the chain are both free. -/
def noAdjFree : List HeapBlock → Bool
  | [] => true
  | [_] => true
  | a :: b :: rest => (isUsed a || isUsed b) && noAdjFree (b :: rest)

/-- Total number of bytes covered by the chain, headers included. -/
def footprint (bs : List HeapBlock) : Nat :=
  (bs.map (fun b => sizeofHeapBlock + b.size)).sum

/-- A well-formed block: capacity a multiple of eight, intact tag, and
an attribute word only ever touched on bit 0. -/
def wfBlock (b : HeapBlock) : Bool :=
  b.size % 8 == 0 && b.key == BLOCK_KEY && (b.attr == 0 || b.attr == 1)

/-- The chain invariant of a constructed region of usable size `S`:
the chain is non-empty, covers exactly the usable bytes, every block is
well formed, and no two adjacent blocks are both free. -/
def Inv (S : Nat) (bs : List HeapBlock) : Prop :=
  bs ≠ [] ∧ footprint bs = S ∧ (∀ b ∈ bs, wfBlock b = true) ∧ noAdjFree bs = true

/-- The head of the chain is used (an empty chain counts as used);
monotone under allocation, which never clears a used bit. -/
def headUsed (bs : List HeapBlock) : Bool :=
  match bs.head? with
  | some b => isUsed b
  | none => true

/-- Adjacent-pair relation of the chain invariant: of two neighbouring
blocks at least one is used. -/
def AdjOk (x y : HeapBlock) : Prop := isUsed x = true ∨ isUsed y = true

/-- Spec-side description of the first-fit scan: the index of the
first block that is neither used nor smaller than the aligned request. -/
def findFit (a : Nat) : List HeapBlock → Option Nat
  | [] => none
  | b :: rest =>
    if isUsed b = false ∧ a ≤ b.size then some 0
    else (findFit a rest).map (· + 1)

/-- Spec-side description of the outcome of a successful allocation of
aligned size `a` at chain index `i`: when the capacity is at least the
request plus one header the block is split — the found block keeps
exactly `a` bytes and is marked used, and a new free block holding the
remainder capacity minus one header is linked between it and its
former next neighbour; otherwise the found block is only marked used. -/
def allocOutcome (bs : List HeapBlock) (i a : Nat) : List HeapBlock :=
  match bs[i]? with
  | none => bs
  | some b =>
    bs.take i
      ++ (if a + sizeofHeapBlock ≤ b.size then
            [setUsed { b with size := a }, ⟨0, b.size - a - sizeofHeapBlock, BLOCK_KEY⟩]
          else [setUsed b])
      ++ bs.drop (i + 1)

/-- Spec-side description of one comparison sweep of the memory test:
every cell of the range matches the pattern. -/
def sweepMatches {M : Type} (r : RamModel M) (m : M) (addr size : Nat)
    (pat : Nat → Nat) : Bool :=
  (List.range size).all (fun i => r.read m (addr + i) == pat i)

/-- Spec-side description of one write sweep of the memory test: the
pattern is written to every cell of the range in index order. -/
def sweepWrite {M : Type} (r : RamModel M) (m : M) (addr size : Nat)
    (pat : Nat → Nat) : M :=
  (List.range size).foldl (fun acc i => r.write acc (addr + i) (pat i)) m

/-- A faultless byte memory: a write stores the low byte of the value
at the cell, a read returns the stored byte. -/
def idealRam : RamModel (Nat → Nat) :=
  ⟨fun m a v => fun x => if x = a then v % 256 else m x, fun m a => m a⟩

/-- A memory whose cells above a cut-off address are stuck at zero:
writes below the cut-off behave, writes at or above it are lost. -/
def stuckRam (cut : Nat) : RamModel (Nat → Nat) :=
  ⟨fun m a v => fun x => if x = a ∧ a < cut then v % 256 else m x,
   fun m a => if a < cut then m a else 0⟩

lemma align8_mod8 (n : Nat) : align8 n % 8 = 0 := by
  unfold align8
  split
  · rw [Nat.mod_mod_of_dvd _ (by norm_num : (8 : Nat) ∣ 2 ^ 64)]
    omega
  · omega

lemma le_align8 (n : Nat) (hn : n ≤ 2 ^ 64 - 8) : n ≤ align8 n := by
  have hpow : (2 : Nat) ^ 64 = 18446744073709551616 := by norm_num
  unfold align8
  rw [hpow] at *
  split <;> omega

lemma align8_lt (n : Nat) (hn : n ≤ 2 ^ 64 - 8) : align8 n < n + 8 := by
  have hpow : (2 : Nat) ^ 64 = 18446744073709551616 := by norm_num
  unfold align8
  rw [hpow] at *
  split <;> omega

lemma blockAddr_zero (a0 : Nat) (bs : List HeapBlock) : blockAddr a0 bs 0 = a0 := by
  simp [blockAddr]

lemma blockAddr_cons (a0 : Nat) (b : HeapBlock) (rest : List HeapBlock) (i : Nat) :
    blockAddr a0 (b :: rest) (i + 1) =
      blockAddr (a0 + sizeofHeapBlock + b.size) rest i := by
  simp [blockAddr, List.take_succ_cons]; omega

lemma allocOutcome_cons (b : HeapBlock) (rest : List HeapBlock) (i a : Nat) :
    allocOutcome (b :: rest) (i + 1) a = b :: allocOutcome rest i a := by
  unfold allocOutcome
  cases h : rest[i]? <;> simp [h, List.take_succ_cons]

lemma findFit_cons_pos {a : Nat} {b : HeapBlock} (rest : List HeapBlock)
    (h : isUsed b = false ∧ a ≤ b.size) : findFit a (b :: rest) = some 0 := by
  simp [findFit, h]

lemma findFit_cons_neg {a : Nat} {b : HeapBlock} (rest : List HeapBlock)
    (h : ¬(isUsed b = false ∧ a ≤ b.size)) :
    findFit a (b :: rest) = (findFit a rest).map (· + 1) := by
  simp [findFit, h]

lemma blockAllocGo_eq (a : Nat) (ha : a % 8 = 0) (bs : List HeapBlock) :
    ∀ a0 : Nat, a0 % 8 = 0 → (∀ b ∈ bs, b.size % 8 = 0) →
      blockAllocGo a a0 bs =
        (match findFit a bs with
         | none => (none, bs)
         | some i => (some (dataAddr (blockAddr a0 bs i)), allocOutcome bs i a)) := by
  induction bs with
  | nil => intro a0 _ _; simp [blockAllocGo, findFit]
  | cons b rest ih =>
    intro a0 ha0 hw
    have hwrest : ∀ x ∈ rest, x.size % 8 = 0 :=
      fun x hx => hw x (List.mem_cons_of_mem _ hx)
    have hwb : b.size % 8 = 0 := hw b (List.mem_cons_self _ _)
    have ha0' : (a0 + sizeofHeapBlock + b.size) % 8 = 0 := by
      simp only [sizeofHeapBlock]; omega
    have hrec := ih (a0 + sizeofHeapBlock + b.size) ha0' hwrest
    by_cases hu : isUsed b = true
    · have hcond : ¬(isUsed b = false ∧ a ≤ b.size) := by simp [hu]
      rw [findFit_cons_neg rest hcond]
      simp only [blockAllocGo, hu, if_true]
      rw [hrec]
      cases hf : findFit a rest with
      | none => simp
      | some j =>
        simp [blockAddr_cons, allocOutcome_cons]
    · have hu' : isUsed b = false := by cases h : isUsed b <;> simp_all
      by_cases hsm : b.size < a
      · have hcond : ¬(isUsed b = false ∧ a ≤ b.size) := by omega
        rw [findFit_cons_neg rest hcond]
        simp only [blockAllocGo, hu', Bool.false_eq_true, if_false, if_pos hsm]
        rw [hrec]
        cases hf : findFit a rest with
        | none => simp
        | some j =>
          simp [blockAddr_cons, allocOutcome_cons]
      · have hcond : isUsed b = false ∧ a ≤ b.size := ⟨hu', by omega⟩
        rw [findFit_cons_pos rest hcond]
        simp only [blockAllocGo, hu', Bool.false_eq_true, if_false, if_neg hsm]
        by_cases hsp : a + sizeofHeapBlock ≤ b.size
        · have h8 : (a0 + sizeofHeapBlock + a) % 8 = 0 := by
            simp only [sizeofHeapBlock]; omega
          have hpl : placementOk (a0 + sizeofHeapBlock + a) = true := by
            simp only [sizeofHeapBlock] at h8
            simp [placementOk, h8, sizeofHeapBlock]
          rw [if_pos hsp, if_pos hpl]
          simp [allocOutcome, blockAddr_zero, dataAddr, if_pos hsp, mkHeapBlock]
        · rw [if_neg hsp]
          simp [allocOutcome, blockAddr_zero, dataAddr, if_neg hsp]

lemma blockAlloc_eq (a0 : Nat) (bs : List HeapBlock) (n : Nat) (hn : n ≠ 0)
    (ha0 : a0 % 8 = 0) (hw : ∀ b ∈ bs, b.size % 8 = 0) :
    blockAlloc a0 bs n =
      (match findFit (align8 n) bs with
       | none => (none, bs)
       | some i =>
         (some (dataAddr (blockAddr a0 bs i)), allocOutcome bs i (align8 n))) := by
  unfold blockAlloc
  rw [if_neg hn]
  exact blockAllocGo_eq (align8 n) (align8_mod8 n) bs a0 ha0 hw

lemma le_blockAddr (a0 : Nat) (bs : List HeapBlock) (i : Nat) :
    a0 ≤ blockAddr a0 bs i := by
  simp [blockAddr]

lemma blockAddr_succ (a0 : Nat) (bs : List HeapBlock) (i : Nat) (b : HeapBlock)
    (h : bs[i]? = some b) :
    blockAddr a0 bs (i + 1) = blockAddr a0 bs i + (sizeofHeapBlock + b.size) := by
  simp [blockAddr, List.take_succ, h]
  omega

lemma idxOfAddr_blockAddr (bs : List HeapBlock) :
    ∀ a0 i, i < bs.length → idxOfAddr a0 bs (blockAddr a0 bs i) = some i := by
  induction bs with
  | nil => intro a0 i hi; simp at hi
  | cons b rest ih =>
    intro a0 i hi
    cases i with
    | zero => simp [idxOfAddr, blockAddr_zero]
    | succ j =>
      have hj : j < rest.length := by simpa using hi
      have hlt : a0 < blockAddr a0 (b :: rest) (j + 1) := by
        rw [blockAddr_cons]
        calc a0 < a0 + sizeofHeapBlock + b.size := by simp only [sizeofHeapBlock]; omega
        _ ≤ blockAddr (a0 + sizeofHeapBlock + b.size) rest j := le_blockAddr _ _ _
      rw [idxOfAddr, if_neg (by omega), blockAddr_cons,
        ih (a0 + sizeofHeapBlock + b.size) j hj]
      rfl

/-- C1 (amended): with a non-zero requested size, `alloc` rounds the
request up to a multiple of eight in `size_t` arithmetic — a request
above `2^64 - 8` wraps to an aligned request of zero, which every free
block fits — then performs a first-fit scan skipping used blocks
and blocks whose capacity is below the aligned request, splits the
found block when its capacity is at least the aligned request plus one
header (the remainder block, carrying the leftover capacity minus one
header, is linked right after the found block, in place at the found
block's payload start plus the aligned request), marks the found block
used and returns its payload address; with no fitting block it returns
the null sentinel. -/
theorem alloc_first_fit_split (a0 : Nat) (bs : List HeapBlock) (n : Nat)
    (hn : n ≠ 0) (ha0 : a0 % 8 = 0) (hw : ∀ b ∈ bs, b.size % 8 = 0) :
    (blockAlloc a0 bs n =
      (match findFit (align8 n) bs with
       | none => (none, bs)
       | some i =>
         (some (dataAddr (blockAddr a0 bs i)), allocOutcome bs i (align8 n))))
    ∧ (∀ i b, findFit (align8 n) bs = some i → bs[i]? = some b →
        align8 n + sizeofHeapBlock ≤ b.size →
        blockAddr a0 (blockAlloc a0 bs n).2 (i + 1) =
          dataAddr (blockAddr a0 bs i) + align8 n) := by
  refine ⟨blockAlloc_eq a0 bs n hn ha0 hw, ?_⟩
  intro i b hf hb hsp
  have hsnd : (blockAlloc a0 bs n).2 = allocOutcome bs i (align8 n) := by
    rw [blockAlloc_eq a0 bs n hn ha0 hw, hf]
  rw [hsnd]
  have hi : i < bs.length := by
    by_contra hcon
    rw [List.getElem?_eq_none (by omega)] at hb
    exact Option.noConfusion hb
  have houtcome :
      allocOutcome bs i (align8 n) =
        bs.take i ++ setUsed { b with size := align8 n } ::
          HeapBlock.mk 0 (b.size - align8 n - sizeofHeapBlock) BLOCK_KEY ::
            bs.drop (i + 1) := by
    simp [allocOutcome, hb, if_pos hsp]
  rw [houtcome]
  have htake : (bs.take i ++ setUsed { b with size := align8 n } ::
      HeapBlock.mk 0 (b.size - align8 n - sizeofHeapBlock) BLOCK_KEY ::
        bs.drop (i + 1)).take (i + 1) =
      bs.take i ++ [setUsed { b with size := align8 n }] := by
    have hlen : (bs.take i).length = i := by
      simp [List.length_take]; omega
    rw [List.take_append_eq_append_take]
    rw [hlen]
    simp
  have hbsaddr : blockAddr a0 bs i = a0 + ((bs.take i).map
      (fun x => sizeofHeapBlock + x.size)).sum := rfl
  simp only [blockAddr, htake]
  simp [List.map_append, List.sum_append, setUsed, dataAddr, sizeofHeapBlock]
  omega

/-- C1 witness: allocating 60 bytes from a fresh 256-byte chain rounds
to 64, splits the single free block and returns the first payload. -/
theorem alloc_first_fit_split_witness :
    blockAlloc 48 [mkHeapBlock 256] 60 =
      (some 96, [HeapBlock.mk 1 64 BLOCK_KEY, HeapBlock.mk 0 96 BLOCK_KEY]) := by
  have h := alloc_first_fit_split 48 [mkHeapBlock 256] 60
    (by decide) (by decide) (by decide)
  rw [h.1]
  decide

/-- C1 counterexample: for a request of `2^64 - 1` no block of the
fresh 256-byte chain has the capacity the rounded-up request would
need, so the claim as stated demands the null sentinel and no
mutation; the code instead wraps the alignment to zero, splits the
free block, marks a zero-capacity block used and returns its payload
address. -/
theorem alloc_first_fit_split_counterexample :
    (∀ b ∈ [mkHeapBlock 256], b.size < 2 ^ 64 - 1)
    ∧ blockAlloc 48 [mkHeapBlock 256] (2 ^ 64 - 1)
        = (some 96, [HeapBlock.mk 1 0 BLOCK_KEY, HeapBlock.mk 0 160 BLOCK_KEY]) := by
  decide

/-- C2: when the corruption-tag checks pass, `free` applies exactly one
of four coalescing outcomes chosen by the freeness of the immediate
neighbours: both free — the previous block absorbs self's and next's
capacities plus two header sizes and is linked to next's former
successor; only previous free — it absorbs self's capacity plus one
header; only next free — self absorbs next's capacity plus one header
and clears its used flag; neither free — only self's used flag is
cleared. -/
theorem free_coalesce_cases (ok : Bool) (self : HeapBlock)
    (hok : ok = true) (hkey : self.key = BLOCK_KEY) :
    (∀ pre p n post, isUsed p = false → isUsed n = false →
       blockFree ok (pre ++ [p]) self (n :: post) =
         pre ++ { p with size := p.size + 2 * sizeofHeapBlock + self.size + n.size }
           :: post)
    ∧ (∀ pre p post, isUsed p = false → (∀ n ∈ post.head?, isUsed n = true) →
         blockFree ok (pre ++ [p]) self post =
           pre ++ { p with size := p.size + sizeofHeapBlock + self.size } :: post)
    ∧ (∀ pre n post, (∀ p ∈ pre.getLast?, isUsed p = true) → isUsed n = false →
         blockFree ok pre self (n :: post) =
           pre ++ clearUsed { self with size := self.size + sizeofHeapBlock + n.size }
             :: post)
    ∧ (∀ pre post, (∀ p ∈ pre.getLast?, isUsed p = true) →
         (∀ n ∈ post.head?, isUsed n = true) →
         blockFree ok pre self post = pre ++ clearUsed self :: post) := by
  have hcd : canDelete ok self = true := by
    simp [canDelete, blockIsConstructed, hok, hkey]
  refine ⟨?_, ?_, ?_, ?_⟩
  · intro pre p n post hp hn
    simp [blockFree, hcd, List.getLast?_concat, List.dropLast_concat, hp, hn]
  · intro pre p post hp hpost
    cases post with
    | nil =>
      simp [blockFree, hcd, List.getLast?_concat, List.dropLast_concat, hp]
    | cons n t =>
      have hn : isUsed n = true := hpost n rfl
      simp [blockFree, hcd, List.getLast?_concat, List.dropLast_concat, hp, hn]
  · intro pre n post hpre hn
    cases hp : pre.getLast? with
    | none => simp [blockFree, hcd, hp, hn]
    | some p =>
      have hpu : isUsed p = true := hpre p hp
      simp [blockFree, hcd, hp, hpu, hn]
  · intro pre post hpre hpost
    cases hp : pre.getLast? with
    | none =>
      cases post with
      | nil => simp [blockFree, hcd, hp]
      | cons n t =>
        have hn : isUsed n = true := hpost n rfl
        simp [blockFree, hcd, hp, hn]
    | some p =>
      have hpu : isUsed p = true := hpre p hp
      cases post with
      | nil => simp [blockFree, hcd, hp, hpu]
      | cons n t =>
        have hn : isUsed n = true := hpost n rfl
        simp [blockFree, hcd, hp, hpu, hn]

/-- C2 witness: the both-free and neither-free outcomes at concrete
chains. -/
theorem free_coalesce_cases_witness :
    (isUsed (HeapBlock.mk 0 16 BLOCK_KEY) = false
      ∧ blockFree true [HeapBlock.mk 0 16 BLOCK_KEY] (HeapBlock.mk 1 24 BLOCK_KEY)
          [HeapBlock.mk 0 32 BLOCK_KEY] =
          [HeapBlock.mk 0 (16 + 2 * sizeofHeapBlock + 24 + 32) BLOCK_KEY])
    ∧ blockFree true [HeapBlock.mk 1 16 BLOCK_KEY] (HeapBlock.mk 1 24 BLOCK_KEY)
        [HeapBlock.mk 1 32 BLOCK_KEY] =
        [HeapBlock.mk 1 16 BLOCK_KEY, HeapBlock.mk 0 24 BLOCK_KEY,
          HeapBlock.mk 1 32 BLOCK_KEY] := by
  constructor
  · refine ⟨by decide, ?_⟩
    have h := (free_coalesce_cases true (HeapBlock.mk 1 24 BLOCK_KEY) rfl rfl).1
      [] (HeapBlock.mk 0 16 BLOCK_KEY) (HeapBlock.mk 0 32 BLOCK_KEY) []
      (by decide) (by decide)
    simpa using h
  · have h := (free_coalesce_cases true (HeapBlock.mk 1 24 BLOCK_KEY) rfl rfl).2.2.2
      [HeapBlock.mk 1 16 BLOCK_KEY] [HeapBlock.mk 1 32 BLOCK_KEY]
      (by decide) (by decide)
    simpa [clearUsed] using h

/-- C7: `free` is a no-op — mutating neither the region nor any block —
on a null address, on a non-constructed region, and when the target
block's own corruption tag or the owning region's check inside
`canDelete` fails. -/
theorem free_guard_noop :
    (∀ a0 h, heapFree a0 h none = h)
    ∧ (∀ a0 h p, heapIsConstructed h = false → heapFree a0 h (some p) = h)
    ∧ (∀ ok pre self post, self.key ≠ BLOCK_KEY →
        blockFree ok pre self post = pre ++ self :: post)
    ∧ (∀ pre self post, blockFree false pre self post = pre ++ self :: post) := by
  refine ⟨?_, ?_, ?_, ?_⟩
  · intro a0 h; rfl
  · intro a0 h p hc; simp [heapFree, hc]
  · intro ok pre self post hk
    have : canDelete ok self = false := by
      simp [canDelete, blockIsConstructed, hk]
    simp [blockFree, this]
  · intro pre self post
    have : canDelete false self = false := by
      simp [canDelete]
    simp [blockFree, this]

/-- C7 witness: the no-op guards at concrete inputs. -/
theorem free_guard_noop_witness :
    (heapFree 48 ⟨0, 64, []⟩ none = ⟨0, 64, []⟩)
    ∧ (heapIsConstructed ⟨0, 64, []⟩ = false
        ∧ heapFree 48 ⟨0, 64, []⟩ (some 96) = ⟨0, 64, []⟩)
    ∧ ((HeapBlock.mk 1 8 7).key ≠ BLOCK_KEY
        ∧ blockFree true [] (HeapBlock.mk 1 8 7) [] = [HeapBlock.mk 1 8 7])
    ∧ blockFree false [] (HeapBlock.mk 1 8 BLOCK_KEY) []
        = [HeapBlock.mk 1 8 BLOCK_KEY] :=
  ⟨free_guard_noop.1 48 ⟨0, 64, []⟩,
   ⟨by decide, free_guard_noop.2.1 48 ⟨0, 64, []⟩ 96 (by decide)⟩,
   ⟨by decide, free_guard_noop.2.2.1 true [] (HeapBlock.mk 1 8 7) [] (by decide)⟩,
   free_guard_noop.2.2.2 [] (HeapBlock.mk 1 8 BLOCK_KEY) []⟩

/-- C8: on a constructed region, `allocate` with an already-non-null
pass-through pointer returns that pointer unchanged and leaves the
whole region state, chain included, untouched, whatever the size. -/
theorem allocate_passthrough (a0 : Nat) (h : HeapState) (n p : Nat)
    (hc : heapIsConstructed h = true) :
    heapAllocate a0 h n (some p) = (some p, h) := by
  simp [heapAllocate, hc]

/-- C8 witness: pass-through at a concrete constructed region. -/
theorem allocate_passthrough_witness :
    heapIsConstructed ⟨HEAP_KEY, 208, [mkHeapBlock 208]⟩ = true
    ∧ heapAllocate 48 ⟨HEAP_KEY, 208, [mkHeapBlock 208]⟩ 5 (some 96)
        = (some 96, ⟨HEAP_KEY, 208, [mkHeapBlock 208]⟩) :=
  ⟨by decide, allocate_passthrough 48 ⟨HEAP_KEY, 208, [mkHeapBlock 208]⟩ 5 96 (by decide)⟩

/-- C10: the payload address of a block is its address plus the fixed
header size, recovering the block from a payload address subtracts the
same header size, and the two computations are mutual inverses: for
every block of a chain, recovering from its payload address yields
exactly that block, so `free` operates on the block the allocation
marked used. -/
theorem payload_block_inverse :
    (∀ a, a + sizeofHeapBlock < 2 ^ 64 → heapBlockAddr (dataAddr a) = a)
    ∧ (∀ a0 bs i, i < bs.length → blockAddr a0 bs i + sizeofHeapBlock < 2 ^ 64 →
        idxOfAddr a0 bs (heapBlockAddr (dataAddr (blockAddr a0 bs i))) = some i) := by
  have hpow : (2 : Nat) ^ 64 = 18446744073709551616 := by norm_num
  have hinv : ∀ a : Nat, a + sizeofHeapBlock < 2 ^ 64 →
      heapBlockAddr (dataAddr a) = a := by
    intro a ha
    simp only [heapBlockAddr, dataAddr, sizeofHeapBlock, hpow] at *
    omega
  refine ⟨hinv, ?_⟩
  intro a0 bs i hi hb
  rw [hinv (blockAddr a0 bs i) hb]
  exact idxOfAddr_blockAddr bs a0 i hi

/-- C10 witness: inversion at a concrete chain. -/
theorem payload_block_inverse_witness :
    (96 + sizeofHeapBlock < 2 ^ 64 ∧ heapBlockAddr (dataAddr 96) = 96)
    ∧ (1 < [mkHeapBlock 112, mkHeapBlock 96].length
        ∧ blockAddr 48 [mkHeapBlock 112, mkHeapBlock 96] 1 + sizeofHeapBlock < 2 ^ 64
        ∧ idxOfAddr 48 [mkHeapBlock 112, mkHeapBlock 96]
            (heapBlockAddr (dataAddr (blockAddr 48 [mkHeapBlock 112, mkHeapBlock 96] 1)))
            = some 1) :=
  ⟨⟨by norm_num [sizeofHeapBlock], payload_block_inverse.1 96 (by norm_num [sizeofHeapBlock])⟩,
   ⟨by norm_num,
    by norm_num [blockAddr, sizeofHeapBlock, mkHeapBlock],
    payload_block_inverse.2 48 [mkHeapBlock 112, mkHeapBlock 96] 1 (by norm_num)
      (by norm_num [blockAddr, sizeofHeapBlock, mkHeapBlock])⟩⟩

lemma isUsed_setUsed (b : HeapBlock) : isUsed (setUsed b) = true := by
  by_cases h : b.attr % 2 = 1
  · simp [isUsed, setUsed, h]
  · simp only [isUsed, setUsed, h, if_false, decide_eq_true_eq]
    omega

lemma isUsed_clearUsed (b : HeapBlock) : isUsed (clearUsed b) = false := by
  simp only [isUsed, clearUsed, decide_eq_false_iff_not]
  omega

lemma footprint_cons (b : HeapBlock) (l : List HeapBlock) :
    footprint (b :: l) = sizeofHeapBlock + b.size + footprint l := by
  simp [footprint]

lemma footprint_append (l₁ l₂ : List HeapBlock) :
    footprint (l₁ ++ l₂) = footprint l₁ + footprint l₂ := by
  simp [footprint]

lemma noAdjFree_iff (bs : List HeapBlock) :
    noAdjFree bs = true ↔ List.Chain' AdjOk bs := by
  induction bs with
  | nil => simp [noAdjFree]
  | cons b rest ih =>
    cases rest with
    | nil => simp [noAdjFree]
    | cons c t =>
      rw [List.chain'_cons, ← ih]
      simp only [noAdjFree, Bool.and_eq_true, Bool.or_eq_true, AdjOk]

lemma wfBlock_iff (b : HeapBlock) :
    wfBlock b = true ↔
      b.size % 8 = 0 ∧ b.key = BLOCK_KEY ∧ (b.attr = 0 ∨ b.attr = 1) := by
  simp [wfBlock, and_assoc]

lemma blockAllocGo_inv (a : Nat) (ha : a % 8 = 0) (bs : List HeapBlock) :
    ∀ a0 : Nat,
      (∀ b ∈ bs, wfBlock b = true) → List.Chain' AdjOk bs →
      (∀ b ∈ (blockAllocGo a a0 bs).2, wfBlock b = true)
      ∧ List.Chain' AdjOk (blockAllocGo a a0 bs).2
      ∧ footprint (blockAllocGo a a0 bs).2 = footprint bs
      ∧ ((blockAllocGo a a0 bs).2 = [] ↔ bs = [])
      ∧ (∀ y ∈ (blockAllocGo a a0 bs).2.head?, ∃ x ∈ bs.head?,
          (isUsed x = true → isUsed y = true)) := by
  induction bs with
  | nil =>
    intro a0 _ _
    simp [blockAllocGo]
  | cons b rest ih =>
    intro a0 hwf hch
    have hwfb : wfBlock b = true := hwf b (List.mem_cons_self _ _)
    have hwfrest : ∀ x ∈ rest, wfBlock x = true :=
      fun x hx => hwf x (List.mem_cons_of_mem _ hx)
    rw [List.chain'_cons'] at hch
    obtain ⟨hbd, hchrest⟩ := hch
    -- the two skip branches share their argument
    have hskip : ∀ u : Prop, ∀ inst : Decidable u,
        (∀ y ∈ rest.head?, AdjOk b y) →
        (∀ x ∈ (b :: (blockAllocGo a (a0 + sizeofHeapBlock + b.size) rest).2),
            wfBlock x = true)
        ∧ List.Chain' AdjOk
            (b :: (blockAllocGo a (a0 + sizeofHeapBlock + b.size) rest).2)
        ∧ footprint (b :: (blockAllocGo a (a0 + sizeofHeapBlock + b.size) rest).2)
            = footprint (b :: rest)
        ∧ ((b :: (blockAllocGo a (a0 + sizeofHeapBlock + b.size) rest).2) = []
            ↔ (b :: rest) = [])
        ∧ (∀ y ∈ (b :: (blockAllocGo a (a0 + sizeofHeapBlock + b.size) rest).2).head?,
            ∃ x ∈ (b :: rest).head?, (isUsed x = true → isUsed y = true)) := by
      intro _ _ hbd'
      obtain ⟨ih1, ih2, ih3, ih4, ih5⟩ :=
        ih (a0 + sizeofHeapBlock + b.size) hwfrest hchrest
      refine ⟨?_, ?_, ?_, by simp, ?_⟩
      · intro x hx
        rcases List.mem_cons.mp hx with h | h
        · exact h ▸ hwfb
        · exact ih1 x h
      · rw [List.chain'_cons']
        refine ⟨?_, ih2⟩
        intro y hy
        by_cases hub : isUsed b = true
        · exact Or.inl hub
        · obtain ⟨x, hx, himp⟩ := ih5 y hy
          have := hbd' x hx
          rcases this with h | h
          · exact absurd h hub
          · exact Or.inr (himp h)
      · rw [footprint_cons, footprint_cons, ih3]
      · intro y hy
        refine ⟨b, rfl, ?_⟩
        simp only [List.head?_cons, Option.mem_def, Option.some.injEq] at hy
        intro hub
        rw [← hy]
        exact hub
    by_cases hu : isUsed b = true
    · have hgo : blockAllocGo a a0 (b :: rest) =
          ((blockAllocGo a (a0 + sizeofHeapBlock + b.size) rest).1,
            b :: (blockAllocGo a (a0 + sizeofHeapBlock + b.size) rest).2) := by
        simp [blockAllocGo, hu]
      rw [hgo]
      exact hskip True inferInstance hbd
    · have hu' : isUsed b = false := by cases h : isUsed b <;> simp_all
      by_cases hsm : b.size < a
      · have hgo : blockAllocGo a a0 (b :: rest) =
            ((blockAllocGo a (a0 + sizeofHeapBlock + b.size) rest).1,
              b :: (blockAllocGo a (a0 + sizeofHeapBlock + b.size) rest).2) := by
          simp [blockAllocGo, hu', hsm]
        rw [hgo]
        exact hskip True inferInstance hbd
      · -- fitting free block
        have hwfb' := (wfBlock_iff b).mp hwfb
        have hrestused : ∀ y ∈ rest.head?, isUsed y = true := by
          intro y hy
          rcases hbd y hy with h | h
          · exact absurd h (by simp [hu'])
          · exact h
        by_cases hsp : a + sizeofHeapBlock ≤ b.size
        · by_cases hpl : placementOk (a0 + sizeofHeapBlock + a) = true
          · have hgo : blockAllocGo a a0 (b :: rest) =
                (some (a0 + sizeofHeapBlock),
                  setUsed { b with size := a } :: mkHeapBlock (b.size - a) :: rest) := by
              simp [blockAllocGo, hu', hsm, hsp, hpl]
            rw [hgo]
            refine ⟨?_, ?_, ?_, by simp, ?_⟩
            · intro x hx
              rcases List.mem_cons.mp hx with h | h
              · subst h
                rw [wfBlock_iff]
                refine ⟨ha, hwfb'.2.1, ?_⟩
                rcases hwfb'.2.2 with h | h <;> simp [setUsed, h]
              · rcases List.mem_cons.mp h with h2 | h2
                · subst h2
                  rw [wfBlock_iff]
                  refine ⟨?_, rfl, Or.inl rfl⟩
                  simp only [mkHeapBlock, sizeofHeapBlock] at *
                  omega
                · exact hwfrest x h2
            · rw [List.chain'_cons]
              refine ⟨Or.inl (isUsed_setUsed _), ?_⟩
              rw [List.chain'_cons']
              refine ⟨fun y hy => Or.inr (hrestused y hy), hchrest⟩
            · rw [footprint_cons, footprint_cons, footprint_cons]
              simp only [setUsed, mkHeapBlock, sizeofHeapBlock] at *
              omega
            · intro y hy
              simp only [List.head?_cons, Option.mem_def, Option.some.injEq] at hy
              exact ⟨b, rfl, fun _ => by rw [← hy]; exact isUsed_setUsed _⟩
          · have hpl' : placementOk (a0 + sizeofHeapBlock + a) = false := by
              cases h : placementOk (a0 + sizeofHeapBlock + a) <;> simp_all
            have hgo : blockAllocGo a a0 (b :: rest) = (none, b :: rest) := by
              simp [blockAllocGo, hu', hsm, hsp, hpl']
            rw [hgo]
            refine ⟨hwf, ?_, rfl, by simp, ?_⟩
            · rw [List.chain'_cons']
              exact ⟨hbd, hchrest⟩
            · intro y hy
              simp only [List.head?_cons, Option.mem_def, Option.some.injEq] at hy
              exact ⟨b, rfl, fun h => by rw [← hy]; exact h⟩
        · have hgo : blockAllocGo a a0 (b :: rest) =
              (some (a0 + sizeofHeapBlock), setUsed b :: rest) := by
            simp [blockAllocGo, hu', hsm, hsp]
          rw [hgo]
          refine ⟨?_, ?_, ?_, by simp, ?_⟩
          · intro x hx
            rcases List.mem_cons.mp hx with h | h
            · subst h
              rw [wfBlock_iff]
              exact ⟨hwfb'.1, hwfb'.2.1, by
                rcases hwfb'.2.2 with h | h <;> simp [setUsed, h]⟩
            · exact hwfrest x h
          · rw [List.chain'_cons']
            exact ⟨fun y hy => Or.inl (isUsed_setUsed _), hchrest⟩
          · rw [footprint_cons, footprint_cons]
            simp [setUsed]
          · intro y hy
            simp only [List.head?_cons, Option.mem_def, Option.some.injEq] at hy
            exact ⟨b, rfl, fun _ => by rw [← hy]; exact isUsed_setUsed _⟩

lemma wfBlock_size {p : HeapBlock} (s : Nat) (h : wfBlock p = true)
    (hs : s % 8 = 0) : wfBlock { p with size := s } = true := by
  rw [wfBlock_iff] at *
  exact ⟨hs, h.2⟩

lemma wfBlock_clearUsed {b : HeapBlock} (h : wfBlock b = true) :
    wfBlock (clearUsed b) = true := by
  rw [wfBlock_iff] at *
  refine ⟨h.1, h.2.1, Or.inl ?_⟩
  rcases h.2.2 with h0 | h1
  · simp [clearUsed, h0]
  · simp [clearUsed, h1]

lemma chain_head_used {n : HeapBlock} {post : List HeapBlock}
    (hch : List.Chain' AdjOk (n :: post)) (hn : isUsed n = false) :
    ∀ y ∈ post.head?, isUsed y = true := by
  rw [List.chain'_cons'] at hch
  intro y hy
  rcases hch.1 y hy with h | h
  · exact absurd h (by simp [hn])
  · exact h

lemma blockFree_inv (ok : Bool) (pre : List HeapBlock) (self : HeapBlock)
    (post : List HeapBlock)
    (hwf : ∀ b ∈ pre ++ self :: post, wfBlock b = true)
    (hch : List.Chain' AdjOk (pre ++ self :: post)) :
    (∀ b ∈ blockFree ok pre self post, wfBlock b = true)
    ∧ List.Chain' AdjOk (blockFree ok pre self post)
    ∧ footprint (blockFree ok pre self post) = footprint (pre ++ self :: post)
    ∧ blockFree ok pre self post ≠ [] := by
  have hwfself : wfBlock self = true := hwf self (by simp)
  have hwfpre : ∀ b ∈ pre, wfBlock b = true := fun b hb => hwf b (by simp [hb])
  have hwfpost : ∀ b ∈ post, wfBlock b = true := fun b hb => hwf b (by simp [hb])
  obtain ⟨hchpre, hchsp, hbd⟩ := List.chain'_append.mp hch
  have hchpost : List.Chain' AdjOk post := (List.chain'_cons'.mp hchsp).2
  have hbdsp : ∀ y ∈ post.head?, AdjOk self y := (List.chain'_cons'.mp hchsp).1
  by_cases hcd : canDelete ok self = true
  · cases hpl : pre.getLast? with
    | none =>
      -- pre is empty
      have hpre : pre = [] := by
        cases pre with
        | nil => rfl
        | cons x xs => simp [List.getLast?_concat] at hpl
      subst hpre
      cases post with
      | nil =>
        simp only [blockFree, hcd]
        refine ⟨?_, ?_, ?_, by simp⟩
        · intro b hb
          simp at hb
          subst hb
          exact wfBlock_clearUsed hwfself
        · simp
        · simp [footprint_cons, clearUsed]
      | cons n post' =>
        by_cases hnu : isUsed n = true
        · have hgo : blockFree ok [] self (n :: post') =
              [] ++ clearUsed self :: n :: post' := by
            simp [blockFree, hcd, hnu]
          rw [hgo]
          refine ⟨?_, ?_, ?_, by simp⟩
          · intro b hb
            simp only [List.nil_append, List.mem_cons] at hb
            rcases hb with hb | hb
            · subst hb; exact wfBlock_clearUsed hwfself
            · exact hwfpost b (by simp [hb])
          · simp only [List.nil_append]
            rw [List.chain'_cons]
            exact ⟨Or.inr hnu, hchpost⟩
          · simp [footprint_cons, clearUsed]
        · have hnu' : isUsed n = false := by cases h : isUsed n <;> simp_all
          have hgo : blockFree ok [] self (n :: post') =
              [] ++ clearUsed { self with size := self.size + sizeofHeapBlock + n.size }
                :: post' := by
            simp [blockFree, hcd, hnu']
          rw [hgo]
          have hpostused := chain_head_used hchpost hnu'
          refine ⟨?_, ?_, ?_, by simp⟩
          · intro b hb
            simp only [List.nil_append, List.mem_cons] at hb
            rcases hb with hb | hb
            · subst hb
              refine wfBlock_clearUsed (wfBlock_size _ hwfself ?_)
              have h1 := (wfBlock_iff _).mp hwfself
              have h2 := (wfBlock_iff _).mp (hwfpost n (by simp))
              simp only [sizeofHeapBlock]
              omega
            · exact hwfpost b (by simp [hb])
          · simp only [List.nil_append]
            rw [List.chain'_cons']
            refine ⟨?_, (List.chain'_cons'.mp hchpost).2⟩
            intro y hy
            exact Or.inr (hpostused y hy)
          · simp [footprint_cons, footprint_append, clearUsed]
            omega
    | some p =>
      have hpreeq : pre.dropLast ++ [p] = pre := List.dropLast_append_getLast? p hpl
      have hpmem : p ∈ pre := by rw [← hpreeq]; simp
      have hwfp : wfBlock p = true := hwfpre p hpmem
      have hdlsub : ∀ x ∈ pre.dropLast, x ∈ pre := by
        intro x hx
        rw [← hpreeq]
        exact List.mem_append_left _ hx
      obtain ⟨hchdl, _, hbddl⟩ : List.Chain' AdjOk pre.dropLast
          ∧ List.Chain' AdjOk [p]
          ∧ ∀ x ∈ pre.dropLast.getLast?, ∀ y ∈ ([p] : List HeapBlock).head?,
              AdjOk x y := by
        rw [← List.chain'_append]
        rw [hpreeq]
        exact hchpre
      have hbdp : ∀ y ∈ (self :: post).head?, AdjOk p y := by
        intro y hy
        exact hbd p hpl y hy
      have hbdps : AdjOk p self := hbdp self rfl
      by_cases hpu : isUsed p = true
      · -- previous used: PREV not free
        cases post with
        | nil =>
          have hgo : blockFree ok pre self [] = pre ++ clearUsed self :: [] := by
            simp [blockFree, hcd, hpl, hpu]
          rw [hgo]
          refine ⟨?_, ?_, ?_, by simp⟩
          · intro b hb
            rcases List.mem_append.mp hb with hb | hb
            · exact hwfpre b hb
            · simp at hb; subst hb; exact wfBlock_clearUsed hwfself
          · rw [List.chain'_append]
            refine ⟨hchpre, by simp, ?_⟩
            intro x hx y hy
            simp only [List.head?_cons, Option.mem_def, Option.some.injEq] at hy
            subst hy
            rw [hpl] at hx
            simp only [Option.mem_def, Option.some.injEq] at hx
            subst hx
            exact Or.inl hpu
          · simp [footprint_append, footprint_cons, clearUsed]
        | cons n post' =>
          by_cases hnu : isUsed n = true
          · have hgo : blockFree ok pre self (n :: post') =
                pre ++ clearUsed self :: n :: post' := by
              simp [blockFree, hcd, hpl, hpu, hnu]
            rw [hgo]
            refine ⟨?_, ?_, ?_, by simp⟩
            · intro b hb
              rcases List.mem_append.mp hb with hb | hb
              · exact hwfpre b hb
              · simp only [List.mem_cons] at hb
                rcases hb with hb | hb
                · subst hb; exact wfBlock_clearUsed hwfself
                · exact hwfpost b (by simp [hb])
            · rw [List.chain'_append]
              refine ⟨hchpre, ?_, ?_⟩
              · rw [List.chain'_cons]
                exact ⟨Or.inr hnu, hchpost⟩
              · intro x hx y hy
                simp only [List.head?_cons, Option.mem_def, Option.some.injEq] at hy
                subst hy
                rw [hpl] at hx
                simp only [Option.mem_def, Option.some.injEq] at hx
                subst hx
                exact Or.inl hpu
            · simp [footprint_append, footprint_cons, clearUsed]
          · have hnu' : isUsed n = false := by cases h : isUsed n <;> simp_all
            have hgo : blockFree ok pre self (n :: post') =
                pre ++ clearUsed { self with size :=
                  self.size + sizeofHeapBlock + n.size } :: post' := by
              simp [blockFree, hcd, hpl, hpu, hnu']
            rw [hgo]
            have hpostused := chain_head_used hchpost hnu'
            refine ⟨?_, ?_, ?_, by simp⟩
            · intro b hb
              rcases List.mem_append.mp hb with hb | hb
              · exact hwfpre b hb
              · simp only [List.mem_cons] at hb
                rcases hb with hb | hb
                · subst hb
                  refine wfBlock_clearUsed (wfBlock_size _ hwfself ?_)
                  have h1 := (wfBlock_iff _).mp hwfself
                  have h2 := (wfBlock_iff _).mp (hwfpost n (by simp))
                  simp only [sizeofHeapBlock]
                  omega
                · exact hwfpost b (by simp [hb])
            · rw [List.chain'_append]
              refine ⟨hchpre, ?_, ?_⟩
              · rw [List.chain'_cons']
                refine ⟨?_, (List.chain'_cons'.mp hchpost).2⟩
                intro y hy
                exact Or.inr (hpostused y hy)
              · intro x hx y hy
                simp only [List.head?_cons, Option.mem_def, Option.some.injEq] at hy
                subst hy
                rw [hpl] at hx
                simp only [Option.mem_def, Option.some.injEq] at hx
                subst hx
                exact Or.inl hpu
            · simp [footprint_append, footprint_cons, clearUsed]
              omega
      · -- previous free
        have hpu' : isUsed p = false := by cases h : isUsed p <;> simp_all
        have hdlused : ∀ x ∈ pre.dropLast.getLast?, isUsed x = true := by
          intro x hx
          rcases hbddl x hx p rfl with h | h
          · exact h
          · exact absurd h (by simp [hpu'])
        cases post with
        | nil =>
          have hgo : blockFree ok pre self [] =
              pre.dropLast ++ { p with size :=
                p.size + sizeofHeapBlock + self.size } :: [] := by
            simp [blockFree, hcd, hpl, hpu']
          rw [hgo]
          refine ⟨?_, ?_, ?_, by simp⟩
          · intro b hb
            rcases List.mem_append.mp hb with hb | hb
            · exact hwfpre b (hdlsub b hb)
            · simp at hb
              subst hb
              refine wfBlock_size _ hwfp ?_
              have h1 := (wfBlock_iff _).mp hwfp
              have h2 := (wfBlock_iff _).mp hwfself
              simp only [sizeofHeapBlock]
              omega
          · rw [List.chain'_append]
            refine ⟨hchdl, by simp, ?_⟩
            intro x hx y hy
            simp only [List.head?_cons, Option.mem_def, Option.some.injEq] at hy
            subst hy
            exact Or.inl (hdlused x hx)
          · conv_rhs => rw [← hpreeq]
            simp [footprint_append, footprint_cons]
            omega
        | cons n post' =>
          by_cases hnu : isUsed n = true
          · have hgo : blockFree ok pre self (n :: post') =
                pre.dropLast ++ { p with size :=
                  p.size + sizeofHeapBlock + self.size } :: n :: post' := by
              simp [blockFree, hcd, hpl, hpu', hnu]
            rw [hgo]
            refine ⟨?_, ?_, ?_, by simp⟩
            · intro b hb
              rcases List.mem_append.mp hb with hb | hb
              · exact hwfpre b (hdlsub b hb)
              · simp only [List.mem_cons] at hb
                rcases hb with hb | hb
                · subst hb
                  refine wfBlock_size _ hwfp ?_
                  have h1 := (wfBlock_iff _).mp hwfp
                  have h2 := (wfBlock_iff _).mp hwfself
                  simp only [sizeofHeapBlock]
                  omega
                · exact hwfpost b (by simp [hb])
            · rw [List.chain'_append]
              refine ⟨hchdl, ?_, ?_⟩
              · rw [List.chain'_cons]
                exact ⟨Or.inr hnu, hchpost⟩
              · intro x hx y hy
                simp only [List.head?_cons, Option.mem_def, Option.some.injEq] at hy
                subst hy
                exact Or.inl (hdlused x hx)
            · conv_rhs => rw [← hpreeq]
              simp [footprint_append, footprint_cons]
              omega
          · have hnu' : isUsed n = false := by cases h : isUsed n <;> simp_all
            have hgo : blockFree ok pre self (n :: post') =
                pre.dropLast ++ { p with size :=
                  p.size + 2 * sizeofHeapBlock + self.size + n.size } :: post' := by
              simp [blockFree, hcd, hpl, hpu', hnu']
            rw [hgo]
            have hpostused := chain_head_used hchpost hnu'
            refine ⟨?_, ?_, ?_, by simp⟩
            · intro b hb
              rcases List.mem_append.mp hb with hb | hb
              · exact hwfpre b (hdlsub b hb)
              · simp only [List.mem_cons] at hb
                rcases hb with hb | hb
                · subst hb
                  refine wfBlock_size _ hwfp ?_
                  have h1 := (wfBlock_iff _).mp hwfp
                  have h2 := (wfBlock_iff _).mp hwfself
                  have h3 := (wfBlock_iff _).mp (hwfpost n (by simp))
                  simp only [sizeofHeapBlock]
                  omega
                · exact hwfpost b (by simp [hb])
            · rw [List.chain'_append]
              refine ⟨hchdl, ?_, ?_⟩
              · rw [List.chain'_cons']
                refine ⟨?_, (List.chain'_cons'.mp hchpost).2⟩
                intro y hy
                exact Or.inr (hpostused y hy)
              · intro x hx y hy
                simp only [List.head?_cons, Option.mem_def, Option.some.injEq] at hy
                subst hy
                exact Or.inl (hdlused x hx)
            · conv_rhs => rw [← hpreeq]
              simp [footprint_append, footprint_cons]
              omega
  · have hcd' : canDelete ok self = false := by
      cases h : canDelete ok self <;> simp_all
    have hgo : blockFree ok pre self post = pre ++ self :: post := by
      simp [blockFree, hcd']
    rw [hgo]
    exact ⟨hwf, hch, rfl, by simp⟩

lemma freeAt_inv (ok : Bool) (bs : List HeapBlock) (i : Nat)
    (hwf : ∀ b ∈ bs, wfBlock b = true) (hch : List.Chain' AdjOk bs) :
    (∀ b ∈ freeAt ok bs i, wfBlock b = true)
    ∧ List.Chain' AdjOk (freeAt ok bs i)
    ∧ footprint (freeAt ok bs i) = footprint bs
    ∧ (bs ≠ [] → freeAt ok bs i ≠ []) := by
  unfold freeAt
  cases hb : bs[i]? with
  | none => exact ⟨hwf, hch, rfl, fun h => h⟩
  | some self =>
    have hi : i < bs.length := by
      by_contra hcon
      rw [List.getElem?_eq_none (by omega)] at hb
      exact Option.noConfusion hb
    have hself : bs[i] = self := by
      have := List.getElem?_eq_getElem hi
      rw [hb] at this
      exact (Option.some.injEq _ _).mp this.symm
    have hdecomp : bs = bs.take i ++ self :: bs.drop (i + 1) := by
      conv_lhs => rw [← List.take_append_drop i bs]
      rw [List.drop_eq_getElem_cons hi, hself]
    obtain ⟨h1, h2, h3, h4⟩ :=
      blockFree_inv ok (bs.take i) self (bs.drop (i + 1))
        (by rw [← hdecomp]; exact hwf) (by rw [← hdecomp]; exact hch)
    refine ⟨h1, h2, ?_, fun _ => h4⟩
    rw [h3, ← hdecomp]

lemma inv_blockAlloc (S a0 n : Nat) (bs : List HeapBlock) (h : Inv S bs) :
    Inv S (blockAlloc a0 bs n).2 := by
  obtain ⟨hne, hfp, hwf, hadj⟩ := h
  unfold blockAlloc
  by_cases hn : n = 0
  · simp only [hn, if_pos rfl]
    exact ⟨hne, hfp, hwf, hadj⟩
  · rw [if_neg hn]
    obtain ⟨h1, h2, h3, h4, _⟩ :=
      blockAllocGo_inv (align8 n) (align8_mod8 n) bs a0 hwf
        ((noAdjFree_iff bs).mp hadj)
    exact ⟨fun hc => hne (h4.mp hc), by rw [h3, hfp],
      h1, (noAdjFree_iff _).mpr h2⟩

lemma inv_freeAt (S : Nat) (ok : Bool) (bs : List HeapBlock) (i : Nat)
    (h : Inv S bs) : Inv S (freeAt ok bs i) := by
  obtain ⟨hne, hfp, hwf, hadj⟩ := h
  obtain ⟨h1, h2, h3, h4⟩ :=
    freeAt_inv ok bs i hwf ((noAdjFree_iff bs).mp hadj)
  exact ⟨h4 hne, by rw [h3, hfp], h1, (noAdjFree_iff _).mpr h2⟩

lemma reach_inv {a0 S : Nat} {bs cs : List HeapBlock} (h : Reach a0 bs cs)
    (hinv : Inv S bs) : Inv S cs := by
  induction h with
  | refl => exact hinv
  | alloc cs n _ ih => exact inv_blockAlloc S a0 n cs ih
  | free cs i _ ih => exact inv_freeAt S true cs i ih

lemma inv_init (S : Nat) (hS8 : S % 8 = 0) (hS : 64 ≤ S) :
    Inv S [mkHeapBlock S] := by
  refine ⟨by simp, ?_, ?_, by simp [noAdjFree]⟩
  · simp [footprint, mkHeapBlock, sizeofHeapBlock]
    omega
  · intro b hb
    simp only [List.mem_singleton] at hb
    subst hb
    rw [wfBlock_iff]
    refine ⟨?_, rfl, Or.inl rfl⟩
    simp only [mkHeapBlock, sizeofHeapBlock]
    omega

lemma blockAddr_lt_of_lt (a0 : Nat) (bs : List HeapBlock) :
    ∀ j i, i < j → j ≤ bs.length → blockAddr a0 bs i < blockAddr a0 bs j := by
  intro j
  induction j with
  | zero => intro i h _; exact absurd h (Nat.not_lt_zero i)
  | succ k ih =>
    intro i hij hlen
    have hk : k < bs.length := by omega
    have hb : bs[k]? = some (bs[k]) := List.getElem?_eq_getElem hk
    have hs := blockAddr_succ a0 bs k (bs[k]) hb
    simp only [sizeofHeapBlock] at hs
    by_cases hik : i = k
    · subst hik
      rw [hs]
      omega
    · have h1 : i < k := by omega
      have h2 := ih i h1 (by omega)
      rw [hs]
      omega

/-- C4: along every `alloc`/`free` call sequence on a constructed
region, the chain stays strictly address-ordered (each block's
successor lies at a strictly higher address) and acyclic (distinct
positions have distinct addresses, so following `next_` never
revisits a block), every block's attribute word encodes exactly one of
used or free, and no two adjacent blocks are ever both free. -/
theorem chain_invariants (a0 S : Nat) (bs : List HeapBlock)
    (hS8 : S % 8 = 0) (hS : 64 ≤ S)
    (hR : Reach a0 [mkHeapBlock S] bs) :
    (∀ i, i + 1 < bs.length → blockAddr a0 bs i < blockAddr a0 bs (i + 1))
    ∧ (∀ i j, i < bs.length → j < bs.length →
        blockAddr a0 bs i = blockAddr a0 bs j → i = j)
    ∧ (∀ b ∈ bs, b.attr = 0 ∨ b.attr = 1)
    ∧ noAdjFree bs = true := by
  obtain ⟨hne, hfp, hwf, hadj⟩ := reach_inv hR (inv_init S hS8 hS)
  refine ⟨?_, ?_, ?_, hadj⟩
  · intro i hi
    exact blockAddr_lt_of_lt a0 bs (i + 1) i (by omega) (by omega)
  · intro i j hi hj heq
    by_contra hne'
    rcases Nat.lt_or_ge i j with h | h
    · exact absurd heq (Nat.ne_of_lt (blockAddr_lt_of_lt a0 bs j i h (by omega)))
    · have : j < i := by omega
      exact absurd heq.symm
        (Nat.ne_of_lt (blockAddr_lt_of_lt a0 bs i j this (by omega)))
  · intro b hb
    exact ((wfBlock_iff b).mp (hwf b hb)).2.2

/-- C4 witness: the invariants after an allocation and a free on a
fresh 256-byte region. -/
theorem chain_invariants_witness :
    (256 % 8 = 0 ∧ 64 ≤ 256)
    ∧ ((∀ i, i + 1 < (freeAt true (blockAlloc 48 [mkHeapBlock 256] 60).2 0).length →
          blockAddr 48 (freeAt true (blockAlloc 48 [mkHeapBlock 256] 60).2 0) i
            < blockAddr 48 (freeAt true (blockAlloc 48 [mkHeapBlock 256] 60).2 0) (i + 1))
        ∧ (∀ i j, i < (freeAt true (blockAlloc 48 [mkHeapBlock 256] 60).2 0).length →
            j < (freeAt true (blockAlloc 48 [mkHeapBlock 256] 60).2 0).length →
            blockAddr 48 (freeAt true (blockAlloc 48 [mkHeapBlock 256] 60).2 0) i
              = blockAddr 48 (freeAt true (blockAlloc 48 [mkHeapBlock 256] 60).2 0) j
            → i = j)
        ∧ (∀ b ∈ freeAt true (blockAlloc 48 [mkHeapBlock 256] 60).2 0,
            b.attr = 0 ∨ b.attr = 1)
        ∧ noAdjFree (freeAt true (blockAlloc 48 [mkHeapBlock 256] 60).2 0) = true) :=
  ⟨⟨by decide, by decide⟩,
   chain_invariants 48 256 (freeAt true (blockAlloc 48 [mkHeapBlock 256] 60).2 0)
     (by decide) (by decide)
     (Reach.free _ _ 0 (Reach.alloc _ _ 60 (Reach.refl _)))⟩

/-- C5: after any reachable call sequence, once every outstanding
allocation has been freed — that is, once no block of the chain is
marked used — the chain is exactly the single free block of the fresh
region, whose capacity is the original usable size minus one header,
even though each free only inspects immediate neighbours. -/
theorem coalescing_completeness (a0 S : Nat) (bs : List HeapBlock)
    (hS8 : S % 8 = 0) (hS : 64 ≤ S)
    (hR : Reach a0 [mkHeapBlock S] bs)
    (hfree : ∀ b ∈ bs, isUsed b = false) :
    bs = [mkHeapBlock S] := by
  obtain ⟨hne, hfp, hwf, hadj⟩ := reach_inv hR (inv_init S hS8 hS)
  cases bs with
  | nil => exact absurd rfl hne
  | cons b rest =>
    cases rest with
    | nil =>
      have hfpb : sizeofHeapBlock + b.size = S := by
        simpa [footprint_cons, footprint] using hfp
      have hwfb := (wfBlock_iff b).mp (hwf b (by simp))
      have hfb : isUsed b = false := hfree b (by simp)
      have hattr : b.attr = 0 := by
        simp only [isUsed, decide_eq_false_iff_not] at hfb
        rcases hwfb.2.2 with h | h
        · exact h
        · exact absurd (by omega : b.attr % 2 = 1) hfb
      have hsize : b.size = S - sizeofHeapBlock := by omega
      cases b with
      | mk attr size key =>
        simp only at hattr hsize
        have hkey : key = BLOCK_KEY := hwfb.2.1
        simp [mkHeapBlock, hattr, hsize, hkey]
    | cons c t =>
      exfalso
      have hb : isUsed b = false := hfree b (by simp)
      have hc : isUsed c = false := hfree c (by simp)
      simp [noAdjFree, hb, hc] at hadj

/-- C5 witness: allocate twice, free in reverse order, and recover the
single original free block. -/
theorem coalescing_completeness_witness :
    (256 % 8 = 0 ∧ 64 ≤ 256
      ∧ (∀ b ∈ freeAt true (freeAt true
            (blockAlloc 48 (blockAlloc 48 [mkHeapBlock 256] 60).2 16).2 1) 0,
          isUsed b = false))
    ∧ freeAt true (freeAt true
        (blockAlloc 48 (blockAlloc 48 [mkHeapBlock 256] 60).2 16).2 1) 0
        = [mkHeapBlock 256] :=
  ⟨⟨by decide, by decide, by decide⟩,
   coalescing_completeness 48 256 _ (by decide) (by decide)
     (Reach.free _ _ 0 (Reach.free _ _ 1
       (Reach.alloc _ _ 16 (Reach.alloc _ _ 60 (Reach.refl _)))))
     (by decide)⟩

lemma findFit_spec (a : Nat) (bs : List HeapBlock) :
    ∀ i, findFit a bs = some i →
      ∃ b, bs[i]? = some b ∧ isUsed b = false ∧ a ≤ b.size := by
  induction bs with
  | nil => intro i h; simp [findFit] at h
  | cons b rest ih =>
    intro i h
    by_cases hc : isUsed b = false ∧ a ≤ b.size
    · rw [findFit_cons_pos rest hc] at h
      have : i = 0 := by simpa using h.symm
      subst this
      exact ⟨b, by simp, hc⟩
    · rw [findFit_cons_neg rest hc] at h
      cases hf : findFit a rest with
      | none => rw [hf] at h; exact Option.noConfusion h
      | some j =>
        rw [hf] at h
        simp at h
        subst h
        obtain ⟨c, hc1, hc2⟩ := ih j hf
        exact ⟨c, by simpa using hc1, hc2⟩

/-- C6 (amended): any single successful allocation of requested size
`n` at most `2^64 - 8` — so the eight-byte alignment of the request
does not wrap — marks a block used whose capacity is at least `n` and
exceeds `n` by strictly less than one header's size. -/
theorem fragmentation_bound (a0 : Nat) (bs : List HeapBlock) (n i : Nat)
    (hn : n ≠ 0) (hn64 : n ≤ 2 ^ 64 - 8) (ha0 : a0 % 8 = 0)
    (hw : ∀ b ∈ bs, b.size % 8 = 0)
    (hf : findFit (align8 n) bs = some i) :
    ∃ b, ((blockAlloc a0 bs n).2)[i]? = some b ∧ isUsed b = true
      ∧ n ≤ b.size ∧ b.size - n < sizeofHeapBlock := by
  obtain ⟨c, hc, hcu, hcs⟩ := findFit_spec (align8 n) bs i hf
  have hcmem : c ∈ bs := List.getElem?_mem hc
  have hc8 : c.size % 8 = 0 := hw c hcmem
  have ha8 : align8 n % 8 = 0 := align8_mod8 n
  have halt : align8 n < n + 8 := align8_lt n hn64
  have hale : n ≤ align8 n := le_align8 n hn64
  have hsnd : (blockAlloc a0 bs n).2 = allocOutcome bs i (align8 n) := by
    rw [blockAlloc_eq a0 bs n hn ha0 hw, hf]
  rw [hsnd]
  have hi : i < bs.length := by
    by_contra hcon
    rw [List.getElem?_eq_none (by omega)] at hc
    exact Option.noConfusion hc
  have htakelen : (bs.take i).length = i := by
    simp [List.length_take]
    omega
  by_cases hsp : align8 n + sizeofHeapBlock ≤ c.size
  · have hout : allocOutcome bs i (align8 n) =
        bs.take i ++ (setUsed { c with size := align8 n } ::
          HeapBlock.mk 0 (c.size - align8 n - sizeofHeapBlock) BLOCK_KEY ::
            bs.drop (i + 1)) := by
      simp [allocOutcome, hc, if_pos hsp]
    rw [hout, List.getElem?_append_right (by omega), htakelen, Nat.sub_self]
    refine ⟨setUsed { c with size := align8 n }, by simp, isUsed_setUsed _, ?_, ?_⟩
    · exact hale
    · show align8 n - n < sizeofHeapBlock
      simp only [sizeofHeapBlock]
      omega
  · have hout : allocOutcome bs i (align8 n) =
        bs.take i ++ (setUsed c :: bs.drop (i + 1)) := by
      simp [allocOutcome, hc, if_neg hsp]
    rw [hout, List.getElem?_append_right (by omega), htakelen, Nat.sub_self]
    refine ⟨setUsed c, by simp, isUsed_setUsed _, ?_, ?_⟩
    · show n ≤ c.size
      omega
    · show c.size - n < sizeofHeapBlock
      simp only [sizeofHeapBlock] at hsp ⊢
      omega

/-- C6 witness: the fragmentation bound at a concrete allocation that
does not split (capacity 96, request 60) and hence absorbs the slack. -/
theorem fragmentation_bound_witness :
    ((60 : Nat) ≠ 0 ∧ (60 : Nat) ≤ 2 ^ 64 - 8 ∧ 48 % 8 = 0
      ∧ (∀ b ∈ [HeapBlock.mk 1 64 BLOCK_KEY, HeapBlock.mk 0 96 BLOCK_KEY],
          b.size % 8 = 0)
      ∧ findFit (align8 60) [HeapBlock.mk 1 64 BLOCK_KEY, HeapBlock.mk 0 96 BLOCK_KEY]
          = some 1)
    ∧ ∃ b, ((blockAlloc 48 [HeapBlock.mk 1 64 BLOCK_KEY, HeapBlock.mk 0 96 BLOCK_KEY]
          60).2)[1]? = some b ∧ isUsed b = true
        ∧ 60 ≤ b.size ∧ b.size - 60 < sizeofHeapBlock :=
  ⟨⟨by decide, by decide, by decide, by decide, by decide⟩,
   fragmentation_bound 48 [HeapBlock.mk 1 64 BLOCK_KEY, HeapBlock.mk 0 96 BLOCK_KEY]
     60 1 (by decide) (by decide) (by decide) (by decide) (by decide)⟩

/-- C6 counterexample: requesting `2^64 - 1` bytes from the fresh
256-byte chain succeeds — the alignment wraps to zero — and the block
marked used has capacity zero, strictly below the requested size, so
the allocation falls short of the request instead of overshooting it
by less than a header. -/
theorem fragmentation_bound_counterexample :
    (blockAlloc 48 [mkHeapBlock 256] (2 ^ 64 - 1)).1 = some 96
    ∧ ((blockAlloc 48 [mkHeapBlock 256] (2 ^ 64 - 1)).2)[0]?
        = some (HeapBlock.mk 1 0 BLOCK_KEY)
    ∧ (HeapBlock.mk 1 0 BLOCK_KEY).size < 2 ^ 64 - 1 := by
  decide

lemma writeFrom_eq {M : Type} (r : RamModel M) (pat : Nat → Nat) (addr : Nat) :
    ∀ (k : Nat) (m : M) (i : Nat),
      writeFrom r pat addr m i k =
        (List.range' i k).foldl (fun acc j => r.write acc (addr + j) (pat j)) m := by
  intro k
  induction k with
  | zero => intro m i; simp [writeFrom]
  | succ k ih =>
    intro m i
    rw [writeFrom, List.range'_succ, List.foldl_cons, ih]

lemma checkFrom_eq {M : Type} (r : RamModel M) (pat : Nat → Nat) (addr : Nat)
    (m : M) : ∀ (k i : Nat),
      checkFrom r pat addr m i k =
        (List.range' i k).all (fun j => r.read m (addr + j) == pat j) := by
  intro k
  induction k with
  | zero => intro i; simp [checkFrom]
  | succ k ih =>
    intro i
    rw [checkFrom, List.range'_succ, List.all_cons]
    by_cases h : r.read m (addr + i) == pat i
    · rw [if_pos (by simpa using h), h, ih]
      simp
    · rw [if_neg (by simpa using h)]
      simp only [h]
      simp

lemma ramPass_eq {M : Type} (r : RamModel M) (m : M) (addr size : Nat)
    (pat : Nat → Nat) :
    ramPass r m addr size pat =
      (sweepMatches r (sweepWrite r m addr size pat) addr size pat,
        sweepWrite r m addr size pat) := by
  simp only [ramPass, sweepWrite, sweepMatches, writeFrom_eq, checkFrom_eq,
    List.range_eq_range']

lemma sweepMatches_iff {M : Type} (r : RamModel M) (m : M) (addr size : Nat)
    (pat : Nat → Nat) :
    sweepMatches r m addr size pat = true ↔
      ∀ i < size, r.read m (addr + i) = pat i := by
  simp [sweepMatches, List.all_eq_true, List.mem_range, beq_iff_eq]

/-- C9: the memory validator writes and re-reads exactly four patterns
in sequence over the full range — the index-derived byte pattern, the
`0x55` byte of `0x55555555`, the `0xAA` byte of `0xAAAAAAAA`, and
all-zero — comparing every byte after each write pass; it returns true
exactly when every comparison of every pass matches, and a single
mismatching byte anywhere makes it return false at once, before any
later pattern is written. -/
theorem memory_validator_spec {M : Type} (r : RamModel M) (m : M)
    (addr size : Nat) :
    (isMemoryAvailable r m addr size =
      (let m1 := sweepWrite r m addr size idxPat
       if !(sweepMatches r m1 addr size idxPat) then (false, m1)
       else
         let m2 := sweepWrite r m1 addr size (fun _ => 0x55)
         if !(sweepMatches r m2 addr size (fun _ => 0x55)) then (false, m2)
         else
           let m3 := sweepWrite r m2 addr size (fun _ => 0xAA)
           if !(sweepMatches r m3 addr size (fun _ => 0xAA)) then (false, m3)
           else
             let m4 := sweepWrite r m3 addr size (fun _ => 0x00)
             (sweepMatches r m4 addr size (fun _ => 0x00), m4)))
    ∧ ((isMemoryAvailable r m addr size).1 = true ↔
        ((∀ i < size,
            r.read (sweepWrite r m addr size idxPat) (addr + i) = idxPat i)
         ∧ (∀ i < size,
            r.read (sweepWrite r (sweepWrite r m addr size idxPat)
              addr size (fun _ => 0x55)) (addr + i) = 0x55)
         ∧ (∀ i < size,
            r.read (sweepWrite r (sweepWrite r (sweepWrite r m addr size idxPat)
              addr size (fun _ => 0x55)) addr size (fun _ => 0xAA)) (addr + i)
              = 0xAA)
         ∧ (∀ i < size,
            r.read (sweepWrite r (sweepWrite r (sweepWrite r
              (sweepWrite r m addr size idxPat) addr size (fun _ => 0x55))
                addr size (fun _ => 0xAA)) addr size (fun _ => 0x00)) (addr + i)
              = 0x00))) := by
  have hstruct : isMemoryAvailable r m addr size =
      (let m1 := sweepWrite r m addr size idxPat
       if !(sweepMatches r m1 addr size idxPat) then (false, m1)
       else
         let m2 := sweepWrite r m1 addr size (fun _ => 0x55)
         if !(sweepMatches r m2 addr size (fun _ => 0x55)) then (false, m2)
         else
           let m3 := sweepWrite r m2 addr size (fun _ => 0xAA)
           if !(sweepMatches r m3 addr size (fun _ => 0xAA)) then (false, m3)
           else
             let m4 := sweepWrite r m3 addr size (fun _ => 0x00)
             (sweepMatches r m4 addr size (fun _ => 0x00), m4)) := by
    simp only [isMemoryAvailable, ramPass_eq]
  refine ⟨hstruct, ?_⟩
  rw [hstruct]
  simp only []
  by_cases h1 : sweepMatches r (sweepWrite r m addr size idxPat) addr size idxPat
  · rw [if_neg (by simp [h1])]
    by_cases h2 : sweepMatches r (sweepWrite r (sweepWrite r m addr size idxPat)
        addr size (fun _ => 0x55)) addr size (fun _ => 0x55)
    · rw [if_neg (by simp [h2])]
      by_cases h3 : sweepMatches r (sweepWrite r (sweepWrite r
          (sweepWrite r m addr size idxPat) addr size (fun _ => 0x55))
            addr size (fun _ => 0xAA)) addr size (fun _ => 0xAA)
      · rw [if_neg (by simp [h3])]
        simp only []
        rw [sweepMatches_iff] at h1 h2 h3
        rw [sweepMatches_iff]
        constructor
        · intro h4
          exact ⟨h1, h2, h3, h4⟩
        · intro h4
          exact h4.2.2.2
      · have h3' : sweepMatches r (sweepWrite r (sweepWrite r
            (sweepWrite r m addr size idxPat) addr size (fun _ => 0x55))
              addr size (fun _ => 0xAA)) addr size (fun _ => 0xAA) = false := by
          cases h : sweepMatches r (sweepWrite r (sweepWrite r
            (sweepWrite r m addr size idxPat) addr size (fun _ => 0x55))
              addr size (fun _ => 0xAA)) addr size (fun _ => 0xAA) <;> simp_all
        rw [if_pos (by simp [h3'])]
        simp only []
        constructor
        · intro hfalse; exact absurd hfalse (by simp)
        · intro hall
          have hx := (sweepMatches_iff r _ addr size _).mpr hall.2.2.1
          rw [h3'] at hx
          exact Bool.noConfusion hx
    · have h2' : sweepMatches r (sweepWrite r (sweepWrite r m addr size idxPat)
          addr size (fun _ => 0x55)) addr size (fun _ => 0x55) = false := by
        cases h : sweepMatches r (sweepWrite r (sweepWrite r m addr size idxPat)
          addr size (fun _ => 0x55)) addr size (fun _ => 0x55) <;> simp_all
      rw [if_pos (by simp [h2'])]
      simp only []
      constructor
      · intro hfalse; exact absurd hfalse (by simp)
      · intro hall
        have hx := (sweepMatches_iff r _ addr size _).mpr hall.2.1
        rw [h2'] at hx
        exact Bool.noConfusion hx
  · have h1' : sweepMatches r (sweepWrite r m addr size idxPat) addr size idxPat
        = false := by
      cases h : sweepMatches r (sweepWrite r m addr size idxPat) addr size idxPat <;>
        simp_all
    rw [if_pos (by simp [h1'])]
    simp only []
    constructor
    · intro hfalse; exact absurd hfalse (by simp)
    · intro hall
      have hx := (sweepMatches_iff r _ addr size _).mpr hall.1
      rw [h1'] at hx
      exact Bool.noConfusion hx

/-- C9 witness: on a faultless four-byte range every pass matches and
the validator answers true. -/
theorem memory_validator_spec_witness :
    (isMemoryAvailable idealRam (fun _ => 7) 8 4).1 = true :=
  (memory_validator_spec idealRam (fun _ => 7) 8 4).2.mpr
    ⟨by decide, by decide, by decide, by decide⟩

/-- C3: installing a heap fails — the result is either the null object
or an object whose `isConstructed()` is false — whenever the base
address is not eight-aligned, whenever the usable size left after the
header overhead is too small to host one minimal block, and whenever
the memory self-test over the usable range fails; and on any
non-constructed region every `allocate` returns the null sentinel and
every `free` changes nothing. -/
theorem construction_failure_modes :
    (∀ (M : Type) (r : RamModel M) (m : M) (addr isize : Nat), addr ≠ 0 →
      ((addr % 8 ≠ 0 → (heapNew r m addr isize).1 = none)
       ∧ (sizeofHeapBlock + 16 > heapDataSize isize →
           ∀ h, (heapNew r m addr isize).1 = some h → heapIsConstructed h = false)
       ∧ ((isMemoryAvailable r (isMemoryAvailable r m addr sizeofHeap).2
             (addr + sizeofHeap) (heapDataSize isize)).1 = false →
           ∀ h, (heapNew r m addr isize).1 = some h → heapIsConstructed h = false)))
    ∧ (∀ (a0 : Nat) (h : HeapState) (n : Nat) (p ptr : Option Nat),
        heapIsConstructed h = false →
        heapAllocate a0 h n p = (none, h) ∧ heapFree a0 h ptr = h) := by
  constructor
  · intro M r m addr isize haddr0
    refine ⟨?_, ?_, ?_⟩
    · intro hmis
      unfold heapNew
      rw [if_neg haddr0, if_pos (Or.inr (Or.inr hmis))]
    · intro hsmall h heq
      unfold heapNew at heq
      rw [if_neg haddr0] at heq
      by_cases hc1 : sizeofHeap % 8 ≠ 0
          ∨ (isMemoryAvailable r m addr sizeofHeap).1 = false ∨ addr % 8 ≠ 0
      · rw [if_pos hc1] at heq
        exact Option.noConfusion heq
      · rw [if_neg hc1, if_pos hsmall] at heq
        have hh := Option.some.inj heq
        rw [← hh]
        simp [heapIsConstructed, HEAP_KEY]
    · intro htest h heq
      unfold heapNew at heq
      rw [if_neg haddr0] at heq
      by_cases hc1 : sizeofHeap % 8 ≠ 0
          ∨ (isMemoryAvailable r m addr sizeofHeap).1 = false ∨ addr % 8 ≠ 0
      · rw [if_pos hc1] at heq
        exact Option.noConfusion heq
      · by_cases hc2 : sizeofHeapBlock + 16 > heapDataSize isize
        · rw [if_neg hc1, if_pos hc2] at heq
          have hh := Option.some.inj heq
          rw [← hh]
          simp [heapIsConstructed, HEAP_KEY]
        · rw [if_neg hc1, if_neg hc2, if_neg (by simp [sizeofHeap, sizeofHeapBlock]),
            if_pos htest] at heq
          have hh := Option.some.inj heq
          rw [← hh]
          simp [heapIsConstructed, HEAP_KEY]
  · intro a0 h n p ptr hc
    constructor
    · simp [heapAllocate, hc]
    · cases ptr with
      | none => rfl
      | some q => simp [heapFree, hc]

/-- C3 witness: a misaligned base address yields the null object, and
a non-constructed region answers null to `allocate` and ignores
`free`. -/
theorem construction_failure_modes_witness :
    ((12 : Nat) ≠ 0 ∧ 12 % 8 ≠ 0
      ∧ (heapNew idealRam (fun _ => 0) 12 256).1 = none)
    ∧ (heapIsConstructed ⟨0, 208, []⟩ = false
      ∧ heapAllocate 48 ⟨0, 208, []⟩ 5 none = (none, ⟨0, 208, []⟩)
      ∧ heapFree 48 ⟨0, 208, []⟩ (some 96) = ⟨0, 208, []⟩) :=
  ⟨⟨by decide, by decide,
    (construction_failure_modes.1 (Nat → Nat) idealRam (fun _ => 0) 12 256
      (by decide)).1 (by decide)⟩,
   ⟨by decide,
    (construction_failure_modes.2 48 ⟨0, 208, []⟩ 5 none (some 96) (by decide)).1,
    (construction_failure_modes.2 48 ⟨0, 208, []⟩ 5 none (some 96) (by decide)).2⟩⟩

end EoosHeap
